import Mathlib

/-!
Shallow embedding of the core logic of `morse_code_learner`
(`src/main.rs`), an interactive Morse-code drill tool, together with
theorems settling the specification's claims about it.

Modelling conventions:
* Rust `char` is Lean `Char`; the single-character item strings held in
  the practice queue are modelled as `Char`, word items as `String`.
* `f32` quantities (accuracy ratios, response times, requirement
  thresholds) are modelled as exact rationals `ℚ`; the claims under
  study concern orderings, guards and algebraic identities of the
  update formulas, not rounding.
* `u8`/`u32` counters are modelled as `ℕ` (no operation in the modelled
  code paths can overflow them: the difficulty level is bumped only
  while it matches one of the eight static tiers).
* The `HashMap<char, f32>` of response times is modelled as an
  association list with overwrite-on-insert semantics; only its value
  multiset (for the average) and key set matter to the claims.
* Randomness (`shuffle`) is modelled by quantifying over an arbitrary
  permutation of the shuffled list.
-/

namespace Morse

/-- The static 36-entry `MORSE_MAPPING` table from `src/main.rs`. -/
def MORSE_MAPPING : List (Char × String) :=
  [('A', ".-"), ('B', "-..."), ('C', "-.-."), ('D', "-.."), ('E', "."), ('F', "..-."),
   ('G', "--."), ('H', "...."), ('I', ".."), ('J', ".---"), ('K', "-.-"), ('L', ".-.."),
   ('M', "--"), ('N', "-."), ('O', "---"), ('P', ".--."), ('Q', "--.-"), ('R', ".-."),
   ('S', "..."), ('T', "-"), ('U', "..-"), ('V', "...-"), ('W', ".--"), ('X', "-..-"),
   ('Y', "-.--"), ('Z', "--.."), ('1', ".----"), ('2', "..---"), ('3', "...--"),
   ('4', "....-"), ('5', "....."), ('6', "-...."), ('7', "--..."), ('8', "---.."),
   ('9', "----."), ('0', "-----")]

/-- Rust's `char::to_ascii_uppercase`. -/
def toAsciiUpper (c : Char) : Char :=
  if 'a' ≤ c ∧ c ≤ 'z' then Char.ofNat (c.toNat - 32) else c

/-- Function `MorseTutor::char_to_morse` (src/main.rs:257-261): linear search of the
table on the ASCII-uppercased character. -/
def char_to_morse (c : Char) : Option String :=
  (MORSE_MAPPING.find? (fun p => p.1 == toAsciiUpper c)).map Prod.snd

/-- Function `MorseTutor::encode_word` (src/main.rs:263-268): per-character lookup,
unmappable characters dropped by `filter_map`, results joined by a space. -/
def encode_word (word : List Char) : String :=
  String.intercalate " " (word.filterMap char_to_morse)

/-- Structure `AppConfig` (src/main.rs:12-17). -/
structure AppConfig where
  difficulty_level : Nat
  session_duration : Nat
  known_chars : List Char
deriving Repr, DecidableEq

/-- Function `AppConfig::default` (src/main.rs:19-27). -/
def AppConfig.defaultCfg : AppConfig :=
  { difficulty_level := 1, session_duration := 1, known_chars := [] }

/-- Structure `ProgressionLevel` (src/main.rs:58-64). -/
structure ProgressionLevel where
  level : Nat
  chars_to_learn : List Char
  speed_requirement : Rat
  accuracy_requirement : Rat
deriving Repr, DecidableEq

/-- The static tier table built by `ProgressionSystem::new`
(src/main.rs:499-548). -/
def progressionLevels : List ProgressionLevel :=
  [{ level := 1, chars_to_learn := ['E', 'T'],
     speed_requirement := 5, accuracy_requirement := 8/10 },
   { level := 2, chars_to_learn := ['A', 'I', 'M', 'N'],
     speed_requirement := 4, accuracy_requirement := 85/100 },
   { level := 3, chars_to_learn := ['D', 'G', 'K', 'O'],
     speed_requirement := 7/2, accuracy_requirement := 9/10 },
   { level := 4, chars_to_learn := ['R', 'S', 'U', 'W'],
     speed_requirement := 7/2, accuracy_requirement := 9/10 },
   { level := 5, chars_to_learn := ['B', 'C', 'F', 'H', 'J', 'L'],
     speed_requirement := 3, accuracy_requirement := 95/100 },
   { level := 6, chars_to_learn := ['P', 'Q', 'V', 'X', 'Y', 'Z'],
     speed_requirement := 3, accuracy_requirement := 95/100 },
   { level := 7, chars_to_learn := ['0', '1', '2', '3', '4'],
     speed_requirement := 5/2, accuracy_requirement := 95/100 },
   { level := 8, chars_to_learn := ['5', '6', '7', '8', '9'],
     speed_requirement := 5/2, accuracy_requirement := 95/100 }]

/-- The mutable state `update_progression` reads and writes: the profile
plus the `is_word_level` flag of `MorseTutor`. -/
structure TutorState where
  config : AppConfig
  is_word_level : Bool
deriving Repr, DecidableEq

/-- The known-char accumulation loop of `update_progression`
(src/main.rs:421-426): append each char of the next tier not already known. -/
def addKnownChars (known : List Char) (to_learn : List Char) : List Char :=
  to_learn.foldl (fun ks c => if c ∈ ks then ks else ks ++ [c]) known

/-- The advancement branch of `update_progression` (src/main.rs:410-430):
bump the level; at level 9 switch to word mode, otherwise append the next
tier's chars to the known set (when the next tier exists). -/
def advance (levels : List ProgressionLevel) (s : TutorState) : TutorState :=
  let newLevel := s.config.difficulty_level + 1
  if newLevel == 9 then
    { config := { s.config with difficulty_level := newLevel }, is_word_level := true }
  else
    match levels.find? (fun l => l.level == newLevel) with
    | none =>
      { config := { s.config with difficulty_level := newLevel },
        is_word_level := s.is_word_level }
    | some next =>
      let known := addKnownChars s.config.known_chars next.chars_to_learn
      { config := { s.config with difficulty_level := newLevel, known_chars := known },
        is_word_level := s.is_word_level }

/-- Function `MorseTutor::update_progression` (src/main.rs:379-439), as a pure
function of the state and the session's accuracy and average response
time.  In word-level (terminal) mode it returns early; otherwise, if the
current difficulty matches a static tier and the session meets both the
speed bound and the accuracy bound (inclusive, src/main.rs:409), it
advances. -/
def update_progression (levels : List ProgressionLevel) (s : TutorState)
    (accuracy avg_time : Rat) : TutorState :=
  if s.is_word_level then s
  else
    match levels.find? (fun l => l.level == s.config.difficulty_level) with
    | none => s
    | some level =>
      if avg_time ≤ level.speed_requirement ∧ accuracy ≥ level.accuracy_requirement then
        advance levels s
      else s

/-- Session accuracy as computed at src/main.rs:173-177 and 389-393:
`correct / total`, guarded to `0` when `total = 0`. -/
def session_accuracy (correct total : Nat) : Rat :=
  if 0 < total then (correct : Rat) / (total : Rat) else 0

/-- Average over the stored response-time samples (src/main.rs:395-400):
mean of the map's values, `0` when the map is empty. -/
def avg_response_time (m : List (Char × Rat)) : Rat :=
  if m.isEmpty then 0 else (m.map Prod.snd).sum / (m.length : Rat)

/-! The practice queue (`MorseTutor::run`, src/main.rs:311-327).

One loop iteration resolves the head item: a correct answer pops it, an
incorrect answer pops it and pushes it to the back.  To speak about the
fate of individual seeded occurrences the items are kept abstract (claim
C3 instantiates them with tagged characters). -/

/-- One `resolve` of the queue's head (src/main.rs:321-327). -/
def queueStep (q : List α) (correct : Bool) : List α :=
  match q with
  | [] => []
  | x :: rest => if correct then rest else rest ++ [x]

/-- The session loop driven by a list of per-presentation correctness
verdicts, also returning the log of `(presented item, verdict)` pairs.
The loop exits as soon as the queue is empty (src/main.rs:311). -/
def queueRun : List α → List Bool → List α × List (α × Bool)
  | q, [] => (q, [])
  | [], _ :: _ => ([], [])
  | x :: rest, a :: as =>
    let r := queueRun (queueStep (x :: rest) a) as
    (r.1, (x, a) :: r.2)

/-- The items of a session log that were answered correctly. -/
def correctlyAnswered (log : List (α × Bool)) : List α :=
  (log.filter (fun e => e.2)).map (fun e => e.1)

/-! Symbol-mode session state (`MorseTutor`, src/main.rs:66-75). -/

/-- Rust `HashMap::insert` on the response-time map (src/main.rs:242):
overwrite the sample for an existing key, else add the key. -/
def insertTime (m : List (Char × Rat)) (c : Char) (t : Rat) : List (Char × Rat) :=
  if m.any (fun p => p.1 == c) then m.map (fun p => if p.1 == c then (c, t) else p)
  else m ++ [(c, t)]

/-- ASCII whitespace as relevant to trimming an input line. -/
def isWs (c : Char) : Bool :=
  c == ' ' || c == '\t' || c == '\n' || c == '\r'

/-- Rust `str::trim` on the character list of the input line. -/
def trimList (cs : List Char) : List Char :=
  ((cs.dropWhile isWs).reverse.dropWhile isWs).reverse

/-- The input normalisation of `practice_item` (src/main.rs:232):
`input.trim().to_uppercase()`. -/
def processInput (cs : List Char) : List Char :=
  (trimList cs).map toAsciiUpper

/-- The expected code of a symbol-mode item (src/main.rs:212-214):
`char_to_morse(c)` with `unwrap_or_default`, i.e. the empty string for an
unmapped character. -/
def expected_code (c : Char) : String :=
  (char_to_morse c).getD ""

/-- Whether `practice_item` judges the (raw) input line correct for the
symbol-mode item `c` (src/main.rs:233). -/
def judge (input : List Char) (c : Char) : Bool :=
  processInput input == (expected_code c).toList

/-- The per-session mutable counters and the response-time map, as
touched by `practice_item` in symbol mode. -/
structure Session where
  queue : List Char
  correct_answers : Nat
  total_answers : Nat
  response_times : List (Char × Rat)
deriving Repr, DecidableEq

/-- One symbol-mode loop iteration of `MorseTutor::run`
(src/main.rs:311-327) on a nonempty queue: judge the raw input against
the head item's expected code, bump the counters, record the response
time, and resolve the queue. -/
def practiceStep (s : Session) (input : List Char) (t : Rat) : Session :=
  match s.queue with
  | [] => s
  | c :: rest =>
    let correct := judge input c
    { queue := if correct then rest else rest ++ [c],
      correct_answers := s.correct_answers + (if correct then 1 else 0),
      total_answers := s.total_answers + 1,
      response_times := insertTime s.response_times c t }

/-- A whole symbol-mode session driven by a list of raw `(input, time)`
answers (the loop stops on an empty queue; `practiceStep` is the
identity there). -/
def runSession (s : Session) : List (List Char × Rat) → Session
  | [] => s
  | (i, t) :: rest => runSession (practiceStep s i t) rest

/-! Queue generation (`MorseTutor::generate_practice_queue`,
src/main.rs:138-169), symbol-mode branch: the known chars are shuffled,
the current tier's chars are appended if absent, and the whole list is
pushed five times over. -/

/-- The char-collection phase: `shuffled_known` is the shuffled copy of
`config.known_chars`; the tier's `chars_to_learn` are appended when not
already present (src/main.rs:150-162). -/
def build_chars (shuffled_known : List Char) (chars_to_learn : List Char) : List Char :=
  addKnownChars shuffled_known chars_to_learn

/-- The seeding phase (src/main.rs:163-167): five full passes over the
collected char list. -/
def generate_queue_symbol (shuffled_known : List Char) (chars_to_learn : List Char) :
    List Char :=
  (List.replicate 5 (build_chars shuffled_known chars_to_learn)).flatten

/-! Bookkeeping of `end_session` (src/main.rs:171-206). -/

/-- The running-accuracy commit of `end_session` (src/main.rs:192-194)
on the pair `(sessions_completed, accuracy)`: increment the counter,
then fold the session's accuracy into the running average. -/
def commit_session (s : Nat × Rat) (a : Rat) : Nat × Rat :=
  (s.1 + 1, (s.2 * (((s.1 + 1) - 1 : Nat) : Rat) + a) / ((s.1 + 1 : Nat) : Rat))

/-- Fold of `commit_session` over a list of per-session accuracies. -/
def commit_sessions (s : Nat × Rat) (as : List Rat) : Nat × Rat :=
  as.foldl commit_session s

/-- What `end_session` writes into the history entry's `chars_practiced`
field (src/main.rs:186-189): the first character of every item still in
the practice queue at session end.  In symbol mode every queued item is
a single character, so this is the remaining queue itself. -/
def chars_practiced_committed (s : Session) : List Char :=
  s.queue

/-- A sequence of session-end progression evaluations, one
`update_progression` per `(accuracy, avg_time)` pair. -/
def runEvaluations (levels : List ProgressionLevel) (s : TutorState) :
    List (Rat × Rat) → TutorState
  | [] => s
  | e :: rest => runEvaluations levels (update_progression levels s e.1 e.2) rest

/-! The fresh-profile, all-correct end-to-end scenario.

Fresh default profile: difficulty 1, no known chars, symbol mode.  The
shuffle of the empty known-char list is the empty list, so the generated
queue is deterministic.  The user answers every presented item with its
correct code, with response time 0. -/

/-- The queue a fresh profile gets: tier 1's chars `E`, `T`, five passes. -/
def c2Queue : List Char :=
  generate_queue_symbol [] ['E', 'T']

/-- All-correct, immediate answers: each presentation (which, with every
answer correct, walks the queue in order) receives the head item's exact
code with response time 0. -/
def c2Answers : List (List Char × Rat) :=
  c2Queue.map (fun c => ((expected_code c).toList, 0))

/-- The session state at the end of the all-correct fresh-profile run. -/
def c2SessionFinal : Session :=
  runSession { queue := c2Queue, correct_answers := 0, total_answers := 0,
               response_times := [] } c2Answers

/-- The tutor state after `end_session`/`update_progression` of that run. -/
def c2Final : TutorState :=
  update_progression progressionLevels
    { config := AppConfig.defaultCfg, is_word_level := false }
    (session_accuracy c2SessionFinal.correct_answers c2SessionFinal.total_answers)
    (avg_response_time c2SessionFinal.response_times)

end Morse

namespace Morse

lemma advance_difficulty (levels : List ProgressionLevel) (s : TutorState) :
    (advance levels s).config.difficulty_level = s.config.difficulty_level + 1 := by
  unfold advance
  dsimp only
  split
  · rfl
  · split <;> rfl

lemma mem_addKnownChars (known to_learn : List Char) :
    ∀ c ∈ known, c ∈ addKnownChars known to_learn := by
  induction to_learn generalizing known with
  | nil => simp [addKnownChars]
  | cons x xs ih =>
    intro c hc
    simp only [addKnownChars, List.foldl_cons]
    apply ih
    by_cases hx : x ∈ known <;> simp [hx, hc]

lemma advance_known (levels : List ProgressionLevel) (s : TutorState) :
    ∀ c ∈ s.config.known_chars, c ∈ (advance levels s).config.known_chars := by
  unfold advance
  dsimp only
  split
  · simp
  · split
    · simp
    · intro c hc
      exact mem_addKnownChars _ _ c hc

lemma update_progression_eq (levels : List ProgressionLevel) (s : TutorState)
    (level : ProgressionLevel) (accuracy avg_time : Rat)
    (hw : s.is_word_level = false)
    (hl : levels.find? (fun l => l.level == s.config.difficulty_level) = some level) :
    update_progression levels s accuracy avg_time =
      if avg_time ≤ level.speed_requirement ∧ accuracy ≥ level.accuracy_requirement then
        advance levels s
      else s := by
  simp [update_progression, hw, hl]

/-- C1: in non-terminal mode, with the current tier found, the tier
ordinal is incremented iff the session accuracy meets the tier's
accuracy requirement and the average response time meets its speed
requirement, both bounds inclusive; otherwise the state is unchanged. -/
theorem advancement_iff_conjunction (levels : List ProgressionLevel) (s : TutorState)
    (level : ProgressionLevel) (accuracy avg_time : Rat)
    (hw : s.is_word_level = false)
    (hl : levels.find? (fun l => l.level == s.config.difficulty_level) = some level) :
    ((update_progression levels s accuracy avg_time).config.difficulty_level
        = s.config.difficulty_level + 1
      ↔ accuracy ≥ level.accuracy_requirement ∧ avg_time ≤ level.speed_requirement)
    ∧ (¬(accuracy ≥ level.accuracy_requirement ∧ avg_time ≤ level.speed_requirement) →
        update_progression levels s accuracy avg_time = s) := by
  rw [update_progression_eq levels s level accuracy avg_time hw hl]
  by_cases h : avg_time ≤ level.speed_requirement ∧ accuracy ≥ level.accuracy_requirement
  · rw [if_pos h, advance_difficulty]
    exact ⟨⟨fun _ => ⟨h.2, h.1⟩, fun _ => rfl⟩, fun hc => absurd ⟨h.2, h.1⟩ hc⟩
  · rw [if_neg h]
    constructor
    · constructor
      · intro he
        exact absurd he (Nat.ne_of_lt (Nat.lt_succ_self _))
      · intro hr
        exact absurd ⟨hr.2, hr.1⟩ h
    · intro _
      rfl

/-- Witness for C1 at a boundary input: accuracy exactly the tier-1
requirement and average time exactly the speed requirement advance
level 1 to level 2. -/
theorem advancement_iff_conjunction_witness :
    (⟨AppConfig.defaultCfg, false⟩ : TutorState).is_word_level = false ∧
    ((update_progression progressionLevels ⟨AppConfig.defaultCfg, false⟩ (8/10) 5).config.difficulty_level = 2
      ↔ (8/10 : Rat) ≥ 8/10 ∧ (5 : Rat) ≤ 5) :=
  ⟨rfl,
    (advancement_iff_conjunction progressionLevels ⟨AppConfig.defaultCfg, false⟩
      { level := 1, chars_to_learn := ['E', 'T'],
        speed_requirement := 5, accuracy_requirement := 8/10 }
      (8/10) 5 rfl rfl).1⟩

end Morse

namespace Morse

lemma c2Session_eval :
    c2SessionFinal = { queue := [], correct_answers := 10, total_answers := 10,
                       response_times := [('E', 0), ('T', 0)] } := rfl

lemma c2Final_eval :
    c2Final = { config := { difficulty_level := 2, session_duration := 1,
                            known_chars := ['A', 'I', 'M', 'N'] },
                is_word_level := false } := by
  unfold c2Final
  rw [c2Session_eval]
  norm_num [update_progression, session_accuracy, avg_response_time,
    progressionLevels, AppConfig.defaultCfg, advance, addKnownChars]
  decide

/-- C2 (counterexample): in the fresh-profile all-correct scenario the
profile does advance to tier 2, but the known-char set does not contain
`E` (nor `T`) — only the next tier's chars `A`, `I`, `M`, `N` are added,
so the known set is not `{E, T, A, I, M, N}` as claimed. -/
theorem fresh_allcorrect_counterexample :
    c2Final.config.difficulty_level = 2 ∧
    'E' ∉ c2Final.config.known_chars ∧
    c2Final.config.known_chars ≠ ['E', 'T', 'A', 'I', 'M', 'N'] := by
  rw [c2Final_eval]
  decide

/-- C2 (amended): starting from a fresh default profile at tier 1, an
all-correct, immediate-answer session advances the profile to tier 2 and
the known-char set becomes exactly `[A, I, M, N]` (the chars newly
introduced by tier 2). -/
theorem fresh_allcorrect_advances :
    c2Final.config.difficulty_level = 2 ∧
    c2Final.config.known_chars = ['A', 'I', 'M', 'N'] := by
  rw [c2Final_eval]
  decide

end Morse

namespace Morse

lemma update_progression_mono (levels : List ProgressionLevel) (s : TutorState)
    (accuracy avg_time : Rat) :
    s.config.difficulty_level
        ≤ (update_progression levels s accuracy avg_time).config.difficulty_level ∧
    ∀ c ∈ s.config.known_chars,
      c ∈ (update_progression levels s accuracy avg_time).config.known_chars := by
  unfold update_progression
  split
  · exact ⟨le_refl _, fun c hc => hc⟩
  · split
    · exact ⟨le_refl _, fun c hc => hc⟩
    · split
      · refine ⟨?_, advance_known levels s⟩
        rw [advance_difficulty]
        exact Nat.le_succ _
      · exact ⟨le_refl _, fun c hc => hc⟩

/-- C4: across any sequence of session-end evaluations, the tier ordinal
never decreases and no known char is ever lost. -/
theorem progression_monotonic (levels : List ProgressionLevel) (s : TutorState)
    (evals : List (Rat × Rat)) :
    s.config.difficulty_level ≤ (runEvaluations levels s evals).config.difficulty_level ∧
    ∀ c ∈ s.config.known_chars, c ∈ (runEvaluations levels s evals).config.known_chars := by
  induction evals generalizing s with
  | nil => exact ⟨le_refl _, fun c hc => hc⟩
  | cons e rest ih =>
    have h1 := update_progression_mono levels s e.1 e.2
    have h2 := ih (update_progression levels s e.1 e.2)
    simp only [runEvaluations]
    exact ⟨le_trans h1.1 h2.1, fun c hc => h2.2 c (h1.2 c hc)⟩

end Morse

namespace Morse

lemma queueRun_perm [DecidableEq α] (q : List α) (as : List Bool) :
    ((queueRun q as).1 ++ correctlyAnswered (queueRun q as).2).Perm q := by
  induction as generalizing q with
  | nil => simp [queueRun, correctlyAnswered]
  | cons a as ih =>
    match q with
    | [] => simp [queueRun, correctlyAnswered]
    | x :: rest =>
      have h := ih (queueStep (x :: rest) a)
      cases a with
      | true =>
        simp only [queueStep, if_pos] at h
        simp only [queueRun, correctlyAnswered, List.filter_cons]
        simp only [correctlyAnswered] at h
        exact List.perm_middle.trans (h.cons x)
      | false =>
        simp only [queueRun, correctlyAnswered, List.filter_cons]
        simp only [correctlyAnswered] at h
        simp only [queueStep, if_neg] at h
        exact h.trans (List.perm_append_singleton x rest)

end Morse

namespace Morse

lemma mem_correctlyAnswered [DecidableEq α] (log : List (α × Bool)) (y : α) :
    y ∈ correctlyAnswered log ↔ (y, true) ∈ log := by
  simp only [correctlyAnswered, List.mem_map, List.mem_filter]
  constructor
  · rintro ⟨⟨a, b⟩, ⟨hmem, hb⟩, rfl⟩
    simp only at hb
    rw [hb] at hmem
    exact hmem
  · intro h
    exact ⟨(y, true), ⟨h, rfl⟩, rfl⟩

lemma queueRun_empty_iff [DecidableEq α] (q : List α) (as : List Bool) (hq : q.Nodup) :
    (queueRun q as).1 = [] ↔ ∀ y ∈ q, (y, true) ∈ (queueRun q as).2 := by
  have hperm := queueRun_perm q as
  constructor
  · intro he y hy
    rw [he, List.nil_append] at hperm
    rw [← mem_correctlyAnswered]
    exact hperm.mem_iff.mpr hy
  · intro hall
    rcases hfq : (queueRun q as).1 with _ | ⟨y, tl⟩
    · rfl
    · exfalso
      have hyfin : y ∈ (queueRun q as).1 := by rw [hfq]; exact List.mem_cons_self y tl
      have hyq : y ∈ q := hperm.mem_iff.mp (List.mem_append_left _ hyfin)
      have hyc : y ∈ correctlyAnswered (queueRun q as).2 :=
        (mem_correctlyAnswered _ y).mpr (hall y hyq)
      have hcount := hperm.count_eq y
      rw [List.count_append] at hcount
      have h1 : 1 ≤ List.count y (queueRun q as).1 := List.count_pos_iff.mpr hyfin
      have h2 : 1 ≤ List.count y (correctlyAnswered (queueRun q as).2) :=
        List.count_pos_iff.mpr hyc
      have hle : List.count y q ≤ 1 := List.nodup_iff_count_le_one.mp hq y
      omega

/-- C3: queue retry semantics — a correct answer removes exactly the
head, an incorrect answer moves the head to the tail preserving the item
count (and the whole multiset of queued items is preserved up to the
correctly answered ones); over a whole session, the remaining queue plus
the correctly answered presentations is a permutation of the seed, and
(for a seed of distinct tagged occurrences) the queue ends empty iff
every seeded occurrence was answered correctly at some presentation. -/
theorem queue_retry_semantics (q : List (Nat × Char)) (as : List Bool) (hq : q.Nodup) :
    (∀ (x : Nat × Char) (rest : List (Nat × Char)), queueStep (x :: rest) true = rest) ∧
    (∀ (x : Nat × Char) (rest : List (Nat × Char)),
      queueStep (x :: rest) false = rest ++ [x] ∧
      (queueStep (x :: rest) false).length = (x :: rest).length) ∧
    ((queueRun q as).1 ++ correctlyAnswered (queueRun q as).2).Perm q ∧
    ((queueRun q as).1 = [] ↔ ∀ y ∈ q, (y, true) ∈ (queueRun q as).2) := by
  refine ⟨fun x rest => rfl, fun x rest => ⟨rfl, by simp [queueStep]⟩, ?_, ?_⟩
  · exact queueRun_perm q as
  · exact queueRun_empty_iff q as hq

/-- Witness for C3: a concrete seed of three tagged occurrences and the
answer trace fail-pass-pass-pass empties the queue, every occurrence
having been answered correctly once. -/
theorem queue_retry_semantics_witness :
    ([((0 : Nat), 'E'), (1, 'T'), (2, 'E')] : List (Nat × Char)).Nodup ∧
    ((queueRun [((0 : Nat), 'E'), (1, 'T'), (2, 'E')] [false, true, true, true]).1 = []
      ↔ ∀ y ∈ [((0 : Nat), 'E'), (1, 'T'), (2, 'E')],
          (y, true) ∈ (queueRun [((0 : Nat), 'E'), (1, 'T'), (2, 'E')]
            [false, true, true, true]).2) :=
  ⟨by decide,
    (queue_retry_semantics [((0 : Nat), 'E'), (1, 'T'), (2, 'E')]
      [false, true, true, true] (by decide)).2.2.2⟩

end Morse

namespace Morse

lemma filterMap_filter_isSome (word : List Char) :
    (word.filter (fun c => (char_to_morse c).isSome)).filterMap char_to_morse
      = word.filterMap char_to_morse := by
  induction word with
  | nil => rfl
  | cons c cs ih =>
    rcases hc : char_to_morse c with _ | v <;>
      simp [List.filter_cons, List.filterMap_cons, hc, ih]

lemma filterMap_eq_map_getD (word : List Char)
    (h : ∀ c ∈ word, (char_to_morse c).isSome) :
    word.filterMap char_to_morse = word.map (fun c => (char_to_morse c).getD "") := by
  induction word with
  | nil => rfl
  | cons c cs ih =>
    have hc := h c (List.mem_cons_self c cs)
    rcases hs : char_to_morse c with _ | v
    · rw [hs] at hc
      simp at hc
    · simp [List.filterMap_cons, hs,
        ih (fun x hx => h x (List.mem_cons_of_mem c hx))]

/-- C5: for every word, the encoded word is the space-join of the
per-char codes in order with unmappable chars silently skipped —
contributing nothing, so encoding any word equals encoding its encodable
chars only; when additionally every char is encodable, it is exactly the
space-join of each char's code. -/
theorem encode_word_spec (word : List Char) :
    encode_word word = String.intercalate " " (word.filterMap char_to_morse) ∧
    encode_word word = encode_word (word.filter (fun c => (char_to_morse c).isSome)) ∧
    ((∀ c ∈ word, (char_to_morse c).isSome) →
      encode_word word
        = String.intercalate " " (word.map (fun c => (char_to_morse c).getD ""))) := by
  refine ⟨rfl, ?_, fun h => ?_⟩
  · unfold encode_word
    rw [filterMap_filter_isSome]
  · unfold encode_word
    rw [filterMap_eq_map_getD word h]

/-- Witness for C5, in two parts: the word `A?B` contains the unmappable
`?`, and its encoding (concretely `.- -...`) equals that of its
encodable chars `AB` alone; and for the all-encodable word `SOS` the
encodability antecedent is discharged concretely. -/
theorem encode_word_spec_witness :
    (char_to_morse '?' = none ∧
      encode_word ['A', '?', 'B']
        = encode_word (['A', '?', 'B'].filter (fun c => (char_to_morse c).isSome)) ∧
      encode_word ['A', '?', 'B'] = ".- -...") ∧
    (∀ c ∈ ['S', 'O', 'S'], (char_to_morse c).isSome) ∧
    encode_word ['S', 'O', 'S']
      = String.intercalate " "
          (['S', 'O', 'S'].map (fun c => (char_to_morse c).getD "")) :=
  ⟨⟨rfl, (encode_word_spec ['A', '?', 'B']).2.1, rfl⟩,
    by decide, (encode_word_spec ['S', 'O', 'S']).2.2 (by decide)⟩

/-- C7: the session-summary accuracy is total — `0` at zero attempts
(no division), `correct / total` at positive attempts. -/
theorem session_accuracy_total (correct total : Nat) :
    session_accuracy correct 0 = 0 ∧
    (0 < total → session_accuracy correct total = (correct : Rat) / (total : Rat)) := by
  constructor
  · simp [session_accuracy]
  · intro h
    simp [session_accuracy, h]

/-- Witness for C7 at 3 correct answers out of 4. -/
theorem session_accuracy_total_witness :
    0 < 4 ∧ session_accuracy 3 4 = (3 : Rat) / 4 :=
  ⟨by decide, (session_accuracy_total 3 4).2 (by decide)⟩

end Morse

namespace Morse

lemma commit_session_eval (n : Nat) (S a : Rat) (hn : 1 ≤ n) :
    commit_session (n, S / (n : Rat)) a = (n + 1, (S + a) / ((n + 1 : Nat) : Rat)) := by
  unfold commit_session
  have hn0 : ((n : Rat)) ≠ 0 := by
    have : 0 < n := hn
    exact_mod_cast this.ne'
  simp only [Nat.add_sub_cancel]
  rw [div_mul_cancel₀ S hn0]

lemma commit_sessions_invariant (as : List Rat) (n : Nat) (S : Rat) (hn : 1 ≤ n) :
    commit_sessions (n, S / (n : Rat)) as
      = (n + as.length, (S + as.sum) / ((n + as.length : Nat) : Rat)) := by
  induction as generalizing n S with
  | nil => simp [commit_sessions]
  | cons a rest ih =>
    simp only [commit_sessions, List.foldl_cons]
    rw [commit_session_eval n S a hn]
    have hrec := ih (n + 1) (S + a) (le_trans hn (Nat.le_succ n))
    simp only [commit_sessions] at hrec
    rw [hrec]
    simp only [List.length_cons, List.sum_cons, Prod.mk.injEq]
    have hnn : n + 1 + rest.length = n + (rest.length + 1) := by omega
    constructor
    · exact hnn
    · rw [hnn]
      ring_nf

/-- C6: starting from the default record (zero sessions, accuracy 0),
folding each session's accuracy through the incremental update
`accuracy := (old * (n - 1) + a) / n` (with `n` the just-incremented
session counter) leaves exactly the arithmetic mean of all session
accuracies. -/
theorem running_accuracy_is_mean (as : List Rat) (h : as ≠ []) :
    commit_sessions (0, 0) as = (as.length, as.sum / ((as.length : Nat) : Rat)) := by
  match as with
  | a :: rest =>
    have h0 : commit_session (0, 0) a = (1, a / ((1 : Nat) : Rat)) := by
      unfold commit_session
      norm_num
    simp only [commit_sessions, List.foldl_cons]
    rw [h0]
    have hrec := commit_sessions_invariant rest 1 a (le_refl 1)
    simp only [commit_sessions] at hrec
    rw [hrec]
    simp only [List.length_cons, List.sum_cons, Prod.mk.injEq]
    constructor
    · omega
    · have hnn : 1 + rest.length = rest.length + 1 := by omega
      rw [hnn]

/-- Witness for C6 on the two-session trace `[1/2, 1]`: the stored
running accuracy is `3/4`, their mean. -/
theorem running_accuracy_is_mean_witness :
    ([(1 : Rat)/2, 1] ≠ []) ∧
    commit_sessions (0, 0) [(1 : Rat)/2, 1]
      = (([(1 : Rat)/2, 1].length : Nat),
          ([(1 : Rat)/2, 1].sum) / ((([(1 : Rat)/2, 1].length : Nat) : Nat) : Rat)) :=
  ⟨by simp, running_accuracy_is_mean [(1 : Rat)/2, 1] (by simp)⟩

end Morse

namespace Morse

lemma mem_addKnownChars_iff (known to_learn : List Char) (c : Char) :
    c ∈ addKnownChars known to_learn ↔ c ∈ known ∨ c ∈ to_learn := by
  induction to_learn generalizing known with
  | nil => simp [addKnownChars]
  | cons x xs ih =>
    simp only [addKnownChars, List.foldl_cons]
    simp only [addKnownChars] at ih
    rw [ih]
    by_cases hx : x ∈ known
    · simp only [if_pos hx, List.mem_cons]
      constructor
      · rintro (h | h)
        · exact Or.inl h
        · exact Or.inr (Or.inr h)
      · rintro (h | rfl | h)
        · exact Or.inl h
        · exact Or.inl hx
        · exact Or.inr h
    · simp only [if_neg hx, List.mem_append, List.mem_singleton, List.mem_cons]
      tauto

lemma nodup_addKnownChars (known to_learn : List Char) (h : known.Nodup) :
    (addKnownChars known to_learn).Nodup := by
  induction to_learn generalizing known with
  | nil => exact h
  | cons x xs ih =>
    simp only [addKnownChars, List.foldl_cons]
    simp only [addKnownChars] at ih
    by_cases hx : x ∈ known
    · rw [if_pos hx]
      exact ih known h
    · rw [if_neg hx]
      apply ih
      simp [List.nodup_append, h, hx]

lemma count_generate_queue (sk tl : List Char) (c : Char) :
    (generate_queue_symbol sk tl).count c = 5 * (build_chars sk tl).count c := by
  simp only [generate_queue_symbol, List.replicate, List.flatten, List.count_append,
    List.count_nil]
  omega

/-- C9: with the current tier found and a duplicate-free known-char
list, the seeded symbol-mode queue holds exactly five copies of every
char in the union of the known chars and the tier's chars, no other
chars, and its length is five times the size of that union. -/
theorem generate_queue_symbol_spec (known shuffled to_learn : List Char)
    (hperm : shuffled.Perm known) (hnd : known.Nodup) :
    (∀ c, (c ∈ known ∨ c ∈ to_learn) →
      (generate_queue_symbol shuffled to_learn).count c = 5) ∧
    (∀ c, ¬(c ∈ known ∨ c ∈ to_learn) →
      (generate_queue_symbol shuffled to_learn).count c = 0) ∧
    (generate_queue_symbol shuffled to_learn).length
      = 5 * (known.toFinset ∪ to_learn.toFinset).card := by
  have hshn : shuffled.Nodup := hperm.nodup_iff.mpr hnd
  have hcn : (build_chars shuffled to_learn).Nodup :=
    nodup_addKnownChars shuffled to_learn hshn
  have hmem : ∀ c, c ∈ build_chars shuffled to_learn ↔ c ∈ known ∨ c ∈ to_learn := by
    intro c
    rw [build_chars, mem_addKnownChars_iff]
    exact or_congr_left hperm.mem_iff
  refine ⟨?_, ?_, ?_⟩
  · intro c hc
    rw [count_generate_queue]
    rw [List.count_eq_one_of_mem hcn ((hmem c).mpr hc)]
  · intro c hc
    rw [count_generate_queue]
    rw [List.count_eq_zero_of_not_mem (fun hm => hc ((hmem c).mp hm))]
  · have hlen : (generate_queue_symbol shuffled to_learn).length
        = 5 * (build_chars shuffled to_learn).length := by
      simp only [generate_queue_symbol, List.replicate, List.flatten, List.length_append,
        List.length_nil]
      omega
    rw [hlen, ← List.toFinset_card_of_nodup hcn]
    have hset : (build_chars shuffled to_learn).toFinset
        = known.toFinset ∪ to_learn.toFinset := by
      apply Finset.ext
      intro c
      simp [hmem c]
    rw [hset]

/-- Witness for C9: known chars `[E]` (shuffled to itself), tier chars
`[E, T]`: every union member occurs five times and the queue length is
`5 * 2`. -/
theorem generate_queue_symbol_spec_witness :
    (['E'] : List Char).Perm ['E'] ∧ (['E'] : List Char).Nodup ∧
    (generate_queue_symbol ['E'] ['E', 'T']).length
      = 5 * ((['E'] : List Char).toFinset ∪ (['E', 'T'] : List Char).toFinset).card :=
  ⟨List.Perm.refl _, by decide,
    (generate_queue_symbol_spec ['E'] ['E'] ['E', 'T'] (List.Perm.refl _) (by decide)).2.2⟩

end Morse

namespace Morse

lemma trimList_all_ws (cs : List Char) (h : ∀ x ∈ cs, isWs x = true) :
    trimList cs = [] := by
  unfold trimList
  have h1 : cs.dropWhile isWs = [] := List.dropWhile_eq_nil_iff.mpr h
  rw [h1]
  rfl

/-- C10: `char_to_morse` succeeds exactly when the ASCII-uppercased
character is among the 36 mapped keys; for an unmapped character the
symbol-mode expected code is the empty string, so any whitespace-only
input line is judged a correct answer for it. -/
theorem char_to_morse_domain (c : Char) (input : List Char)
    (hws : ∀ x ∈ input, isWs x = true) :
    ((char_to_morse c).isSome ↔ toAsciiUpper c ∈ MORSE_MAPPING.map Prod.fst) ∧
    (char_to_morse c = none → expected_code c = "" ∧ judge input c = true) := by
  constructor
  · have hiso : (char_to_morse c).isSome
        = (MORSE_MAPPING.find? (fun p => p.1 == toAsciiUpper c)).isSome := by
      rw [char_to_morse]
      cases hf : MORSE_MAPPING.find? (fun p => p.1 == toAsciiUpper c) <;> rfl
    rw [hiso, List.find?_isSome]
    simp only [List.mem_map, beq_iff_eq]
  · intro hn
    have he : expected_code c = "" := by
      rw [expected_code, hn]
      rfl
    refine ⟨he, ?_⟩
    rw [judge, he, processInput, trimList_all_ws input hws]
    rfl

/-- Witness for C10 at the unmapped character `?` and a blank input line. -/
theorem char_to_morse_domain_witness :
    (∀ x ∈ [' ', '\t'], isWs x = true) ∧
    (char_to_morse '?' = none →
      expected_code '?' = "" ∧ judge [' ', '\t'] '?' = true) :=
  ⟨by decide, (char_to_morse_domain '?' [' ', '\t'] (by decide)).2⟩

/-- C8 (behavior at the failing input): after the completed fresh-profile
all-correct session — ten answers, on the chars `E` and `T` — the value
committed to the history entry's `chars_practiced` field is the queue
remaining at session end, which is empty, not the practiced items. -/
theorem chars_practiced_is_leftover_queue :
    chars_practiced_committed c2SessionFinal = [] ∧
    c2SessionFinal.total_answers = 10 ∧
    ('E', (0 : Rat)) ∈ c2SessionFinal.response_times ∧
    ('T', (0 : Rat)) ∈ c2SessionFinal.response_times := by
  rw [chars_practiced_committed, c2Session_eval]
  decide

end Morse
